import Mathlib

/-!
Shallow embedding of the ColorSort puzzle engine
(`src/game/constants.py`, `src/game/game_logic.py`, `src/game/main.py`)
together with theorems checking the natural-language specification
against it.

Conventions used throughout:

* A tube ("stack") is a `List ℕ` of color identifiers, stored TOP-FIRST:
  Python's `stack[-1]` (the top) is `List.head?`, `stack.append(x)` is
  `x :: ·`, and `stack.pop()` is `List.tail`.  The Python code reads
  `stack[0]` only inside "all elements equal the first" checks, which are
  equivalent to "all elements are equal" and hence orientation-invariant,
  so this reversal is semantically transparent.  The one exception is the
  generator, which never interacts with the move engine; its stacks are
  kept in Python append order (see `draw_stack`).
* Python's in-place list mutation is modeled by returning the new value.
* `random.shuffle` is modeled by an explicit stream of shuffle functions
  passed as a parameter (see `initialize_game`).
* Python exceptions and divergence are modeled with `Except PyExc`.
* Unbounded Python `while` loops are modeled with an explicit fuel
  argument; `none` at the fuel layer means the modeled loop did not
  finish within the given number of iterations.
-/

namespace ColorSort

/-- A board is the list of tubes, exactly as the Python `stacks : list[list]`; the identifier `stacks` is a reserved token in this Mathlib environment, so the binder is named `stks`. -/
abbrev Board := List (List ℕ)

/-- A move is a `(source, destination)` pair of 0-based tube indices. -/
abbrev Move := ℕ × ℕ

/-- `MAX_STACK_SIZE = 4` from `constants.py`. -/
def MAX_STACK_SIZE : ℕ := 4

/-- `MIN_STACKS = 5` from `constants.py`. -/
def MIN_STACKS : ℕ := 5

/-- `MAX_STACKS = 9` from `constants.py`. -/
def MAX_STACKS : ℕ := 9

/-- The palette `COLORS` from `constants.py`: seven distinct opaque color
values, modeled as the identifiers `0..6` (the actual ANSI strings carry
no structure the program relies on beyond equality). -/
def COLORS : List ℕ := [0, 1, 2, 3, 4, 5, 6]

/-- Python exceptional outcomes of `process_move`:
`indexError` models an `IndexError` raised by `stacks[source]` or
`stacks[destination]`; `nonTermination` models the infinite loop that the
Python code enters when `source` and `destination` are different integers
that resolve to the same list object (negative-index aliasing), the
aliased stack is non-empty and its length is not `MAX_STACK_SIZE`. -/
inductive PyExc where
  | indexError
  | nonTermination
deriving DecidableEq

/-- Python list subscript resolution for `stacks[i]` on a list of length
`n`: indices in `[0, n)` are used directly, indices in `[-n, 0)` count
from the end, anything else raises `IndexError` (modeled as `none`). -/
def pyIndex (n : ℕ) (i : Int) : Option ℕ :=
  if 0 ≤ i ∧ i < (n : Int) then some i.toNat
  else if -(n : Int) ≤ i ∧ i < 0 then some (i + n).toNat
  else none

/-- The pour loop of `process_move` (`game_logic.py` lines 86-91):

    while ((not destination_stack or source_stack[-1] == destination_stack[-1]) and
           len(destination_stack) != MAX_STACK_SIZE):
        destination_stack.append(source_stack.pop())
        flag = True
        if not source_stack:
            break

In the top-first representation the source top `source_stack[-1]` is the
head `a`, popping is dropping the head, and appending to the destination
is consing.  The `[]` source case is the loop's `break`; the loop guard
itself is never evaluated with an empty source in the Python code. -/
def pour_run : List ℕ → List ℕ → Bool → List ℕ × List ℕ × Bool
  | [], dst, flag => ([], dst, flag)
  | a :: rest, dst, flag =>
    if (dst.isEmpty || dst.head? == some a) && dst.length != MAX_STACK_SIZE then
      pour_run rest (a :: dst) true
    else (a :: rest, dst, flag)

/-- `process_move` (`game_logic.py` lines 65-96) after both subscripts
have resolved to in-range positions `source` and `destination`.  Python
mutates `stacks` in place; here the mutated board is returned as the
second component.  The returned triple is
`(flag, mutated stacks, returned previous_state)`. -/
def process_move_core (stks : Board) (source destination : ℕ)
    (previous_state : Board) : Bool × Board × Board :=
  let source_stack := stks.getD source []
  let destination_stack := stks.getD destination []
  if source_stack.isEmpty || destination_stack.length == MAX_STACK_SIZE
      || source == destination then
    (false, stks, previous_state)
  else
    let initial_state := stks
    let r := pour_run source_stack destination_stack false
    let stks' := (stks.set source r.1).set destination r.2.1
    (r.2.2, stks', if r.2.2 then initial_state else previous_state)

/-- `process_move(stacks, source, destination, previous_state)` with raw
integer indices, including Python's subscript behavior: out-of-range
subscripts raise `IndexError`; a pair of distinct raw indices that
resolve to the same tube makes `source_stack` and `destination_stack`
the same list object, in which case the Python pre-check compares the
raw integers (`source == destination` is false) and either returns
`False` (empty or max-length stack) or loops forever popping and
re-appending the same element (`nonTermination`). -/
def process_move (stks : Board) (source destination : Int)
    (previous_state : Board) : Except PyExc (Bool × Board × Board) :=
  match pyIndex stks.length source with
  | none => .error .indexError
  | some s =>
    match pyIndex stks.length destination with
    | none => .error .indexError
    | some d =>
      if s = d ∧ source ≠ destination then
        if (stks.getD s []).isEmpty
            || (stks.getD s []).length == MAX_STACK_SIZE then
          .ok (false, stks, previous_state)
        else .error .nonTermination
      else .ok (process_move_core stks s d previous_state)

/-- The index arithmetic of `parse_move` (`game_logic.py` lines 99-109)
after the command string has been split into exactly two integers: both
1-based tube numbers are decremented, so tube number `0` becomes the
index `-1`.  The regex splitting of the raw string is presentation-layer
string processing and is not modeled. -/
def parse_move_indices (source destination : Int) : Int × Int :=
  (source - 1, destination - 1)

/-- `check_win_condition` (`game_logic.py` lines 112-114): every
non-empty stack is uniform and of maximal length.  Python's
`all(x == stack[0] for x in stack)` is "all elements equal", written
here against the head of the top-first list. -/
def check_win_condition (stks : Board) : Bool :=
  stks.all fun stack =>
    if stack.isEmpty then true
    else stack.all (fun x => x == stack.headI) && stack.length == MAX_STACK_SIZE

/-- The uniformity test `all(x == source_stack[0] for x in source_stack)`
used for `clean_stack_flag` in `get_valid_moves`. -/
def all_equal (stack : List ℕ) : Bool :=
  stack.all fun x => x == stack.headI

/-- `len(set(stack)) == 1` from `initialize_game`: the stack is non-empty
and all its elements are equal. -/
def is_uniform_stack (stack : List ℕ) : Bool :=
  !stack.isEmpty && all_equal stack

/-- `get_valid_moves` (`game_logic.py` lines 141-176), the successor-move
enumeration of the solver.  The `MAX_STACK_SIZE - len(destination_stack)`
subtraction is computed in `Int` because Python integers go negative for
over-full stacks. -/
def get_valid_moves (stks : Board) (previous_move : Option Move) : List Move :=
  stks.enum.flatMap fun p =>
    let source_index := p.1
    let source_stack := p.2
    if source_stack.isEmpty then []
    else
      let clean_stack_flag := all_equal source_stack
      stks.enum.filterMap fun q =>
        let destination_index := q.1
        let destination_stack := q.2
        if source_index == destination_index then none
        else if (match previous_move with
                  | some pm => pm.1 == destination_index && pm.2 == source_index
                  | none => false) then none
        else if clean_stack_flag &&
            (destination_stack.isEmpty ||
              decide ((MAX_STACK_SIZE : Int) - destination_stack.length
                < source_stack.length)) then none
        else if (destination_stack.isEmpty
              || destination_stack.head? == source_stack.head?) &&
            decide (destination_stack.length < MAX_STACK_SIZE) then
          some (source_index, destination_index)
        else none

/-- `compress_state` (`game_logic.py` lines 138-139): Python converts the
list of lists to a tuple of tuples so it can be hashed; in the value
model the key is the board itself. -/
def compress_state (stks : Board) : Board := stks

/-- The successor generation of `best_solve`'s loop body (the
`for src, dst in get_valid_moves(stacks)` loop, `game_logic.py` lines
193-196): every move returned by `get_valid_moves` — called WITHOUT the
previous move — whose `process_move` succeeds yields the mutated copy of
the board paired with the extended path. -/
def bfs_successors (stks : Board) (path : List Move) :
    List (Board × List Move) :=
  (get_valid_moves stks none).filterMap fun m =>
    match process_move stks (m.1 : Int) (m.2 : Int) [] with
    | .ok r => if r.1 then some (r.2.1, path ++ [m]) else none
    | .error _ => none

/-- The body of `best_solve`'s BFS `while queue:` loop: pop the front
node, skip it if its key was already visited, otherwise mark it visited,
return its path if it is a winning state, and otherwise append its
successors.  `.inl r` means the Python function returns `r`
(`some path` for a solution, `none` for the final `return None` — the
latter is produced by the queue-empty case), `.inr` is the next loop
state `(visited, queue)`. -/
def bfs_step : List Board × List (Board × List Move) →
    Option (List Move) ⊕ (List Board × List (Board × List Move))
  | (_, []) => .inl none
  | (visited, (stks, path) :: rest) =>
    let state_key := compress_state stks
    if state_key ∈ visited then .inr (visited, rest)
    else
      let visited' := state_key :: visited
      if check_win_condition stks then .inl (some path)
      else .inr (visited', rest ++ bfs_successors stks path)

/-- Fuel-indexed iteration of `bfs_step`; `none` means the fuel ran out
before the Python loop finished. -/
def bfs_run : ℕ → List Board × List (Board × List Move) →
    Option (Option (List Move))
  | 0, _ => none
  | fuel + 1, st =>
    match bfs_step st with
    | .inl r => some r
    | .inr st' => bfs_run fuel st'

/-- Fuel used by `best_solve`; the Python loop always terminates because
the visited set grows, and every board considered in the theorems below
finishes its search well within this bound. -/
def SEARCH_FUEL : ℕ := 1000000

/-- `best_solve` (`game_logic.py` lines 126-197): BFS from the initial
board.  `some (some path)` is Python's `return path`, `some none` is
Python's final `return None`, and the outer `none` is fuel exhaustion
(never hit in the theorems below). -/
def best_solve (initial_stacks : Board) : Option (Option (List Move)) :=
  bfs_run SEARCH_FUEL ([], [(initial_stacks, [])])

/-- Python's `round(x, 1)` for the exact nonnegative rational
`num / den` (`den ≠ 0`), returned scaled by ten: the result is the
integer `round(10 * num / den)` under round-half-to-even, the rounding
rule of Python's `round` at exactly representable values.  Floats are
modeled as exact rationals here; at every value appearing in the
theorems below the Python float computation is exact, so the models
agree.  (Rationals are represented by explicit numerator/denominator
arithmetic because `ℚ` does not reduce inside the kernel.) -/
def round1_times10 (num den : ℕ) : ℕ :=
  let q := 10 * num / den
  let r := 10 * num % den
  if 2 * r < den then q
  else if den < 2 * r then q + 1
  else if q % 2 = 0 then q else q + 1

/-- `rate_solution` (`game_logic.py` lines 199-204):

    if user_moves <= optimal_moves:
        return 5
    ratio = optimal_moves / user_moves
    stars = 5 * ratio
    return int(max(1.0, round(stars, 1)))

With `stars = 5 * optimal / user` and `stars10 = round(10 * stars)`
(half-to-even), Python's `round(stars, 1)` is the rational
`stars10 / 10`, and `int(max(1.0, stars10 / 10))` (truncation toward
zero of a value that is at least one) equals `max 1 (stars10 / 10)`
under natural division: if `stars10 ≤ 10` both sides are `1`, otherwise
both sides truncate `stars10 / 10`. -/
def rate_solution (user_moves optimal_moves : ℕ) : ℕ :=
  if user_moves ≤ optimal_moves then 5
  else
    let stars10 := round1_times10 (5 * optimal_moves) user_moves
    max 1 (stars10 / 10)

/-- Helper for `draw_stack`: `k` counts the remaining free slots
`MAX_STACK_SIZE - len(stack)`, which decreases by one per iteration, so
the loop guard `len(stack) < MAX_STACK_SIZE` is exactly `k ≠ 0`. -/
def draw_stack_aux : ℕ → List ℕ → List ℕ → List ℕ × List ℕ
  | 0, stack, pool => (stack, pool)
  | k + 1, stack, pool =>
    match pool.getLast? with
    | none => (stack, pool)
    | some color => draw_stack_aux k (stack ++ [color]) pool.dropLast

/-- The inner generation loop of `initialize_game`:

    while len(stack) < MAX_STACK_SIZE and color_pool:
        color = color_pool.pop()
        stack.append(color)

`pop()` takes the LAST element of the pool.  Generator stacks never meet
the move engine, so they are kept in Python append order (bottom-first). -/
def draw_stack (stack pool : List ℕ) : List ℕ × List ℕ :=
  draw_stack_aux (MAX_STACK_SIZE - stack.length) stack pool

/-- The outer `while color_pool:` loop of `initialize_game`
(`game_logic.py` lines 44-56): draw a stack from the end of the pool; if
it is uniform, return it to the pool, reshuffle and retry, otherwise
keep it.  `shuffles i` is the (multiset-preserving) outcome of the
`i`-th call to `random.shuffle`; the loop has no retry bound in the
source, so fuel counts iterations and `none` means it did not finish. -/
def gen_loop (shuffles : ℕ → List ℕ → List ℕ) :
    ℕ → ℕ → List ℕ → List (List ℕ) → Option (List (List ℕ))
  | 0, _, _, _ => none
  | fuel + 1, shuffle_idx, color_pool, stks =>
    if color_pool.isEmpty then some stks
    else
      let r := draw_stack [] color_pool
      if is_uniform_stack r.1 then
        gen_loop shuffles fuel (shuffle_idx + 1)
          (shuffles shuffle_idx (r.2 ++ r.1)) stks
      else gen_loop shuffles fuel shuffle_idx r.2 (stks ++ [r.1])

/-- `initialize_game` (`game_logic.py` lines 20-62) for an explicit
`num_stacks` (the `None` default draws it from `[MIN_STACKS, MAX_STACKS]`
uniformly; the claims quantify over this range explicitly).
`selected_colors * MAX_STACK_SIZE` is Python list repetition.  Shuffle
call `0` is the initial `random.shuffle(color_pool)`; subsequent calls
are the reshuffles after a uniform draw. -/
def initialize_game (num_stacks : ℕ) (shuffles : ℕ → List ℕ → List ℕ)
    (fuel : ℕ) : Option (List (List ℕ)) :=
  let num_colors := num_stacks - 2
  let selected_colors := COLORS.take num_colors
  let color_pool := (List.replicate MAX_STACK_SIZE selected_colors).flatten
  let color_pool := shuffles 0 color_pool
  (gen_loop shuffles fuel 1 color_pool []).map fun stks => stks ++ [[], []]

/-- A concrete admissible outcome stream for `random.shuffle` in a
5-stack game: the initial shuffle (call 0) arranges the pool
`[0,1,2] * 4` so that the first two drawn stacks are the non-uniform
`[2,2,1,1]` (drawing pops from the end) and the four `0`-tokens are left
last; every later call leaves its input unchanged.  Each outcome is a
permutation of the shuffled list, as `random.shuffle` guarantees. -/
def c9_shuffles : ℕ → List ℕ → List ℕ := fun i l =>
  if i == 0 && l == [0, 1, 2, 0, 1, 2, 0, 1, 2, 0, 1, 2] then
    [0, 0, 0, 0, 1, 1, 2, 2, 1, 1, 2, 2]
  else l

/-- Session state of the interactive loop in `main.py`: the current
board, the board fixed at creation (`original_stacks`), the snapshot for
undo (`previous_state`), and the recorded move list, whose entries are
the raw integer pairs from `parse_move`. -/
structure Session where
  stks : Board
  original_stacks : Board
  previous_state : Board
  moves : List (Int × Int)
deriving DecidableEq

/-- The state produced by `initialize()` in `main.py` for a given
generated board: all three board fields start as (deep copies of) the
generated stks and the move list is empty.  The `best_solve_count` and
`new` components do not influence the session-state transitions. -/
def init_session (stks : Board) : Session := ⟨stks, stks, stks, []⟩

/-- The session-state-changing player commands of the `main.py` loop.
Commands that never change the session state (hint, help, copyright,
warranty) are omitted; `quit` ends the loop and `new` replaces the whole
session with a freshly generated one. -/
inductive Cmd where
  | reset
  | undo
  | move (source destination : Int)
deriving DecidableEq

/-- One iteration of the `main.py` command loop (lines 62-97) on the
session state.  `reset` copies `original_stacks` into `stks` (and
nothing else); `undo` pops the move list and restores `previous_state`
when the move list is non-empty; a move command runs `process_move`,
whose exceptions are swallowed by the `except Exception` handler
(`IndexError` is raised before any mutation, so the state is unchanged),
while the aliasing divergence hangs the program (`none`). -/
def session_step (st : Session) : Cmd → Option Session
  | .reset => some { st with stks := st.original_stacks }
  | .undo =>
    if st.moves.isEmpty then some st
    else some { st with moves := st.moves.dropLast, stks := st.previous_state }
  | .move source destination =>
    match process_move st.stks source destination st.previous_state with
    | .error .indexError => some st
    | .error .nonTermination => none
    | .ok r =>
      if r.1 then
        some { stks := r.2.1, original_stacks := st.original_stacks,
               previous_state := r.2.2,
               moves := st.moves ++ [(source, destination)] }
      else some { st with stks := r.2.1, previous_state := r.2.2 }

/-- Running a sequence of commands through the session loop. -/
def session_run : Session → List Cmd → Option Session
  | st, [] => some st
  | st, c :: cs =>
    match session_step st c with
    | none => none
    | some st1 => session_run st1 cs

/-- Move legality from spec §3: "A Move is legal against a Board iff:
source ≠ destination; source is non-empty; destination is not full; and
either destination is empty or `top(source) == top(destination)`." -/
def is_legal (stks : Board) (s d : ℕ) : Prop :=
  s ≠ d ∧ stks.getD s [] ≠ [] ∧
    (stks.getD d []).length < MAX_STACK_SIZE ∧
    (stks.getD d [] = [] ∨ (stks.getD s []).head? = (stks.getD d []).head?)

instance (stks : Board) (s d : ℕ) : Decidable (is_legal stks s d) := by
  unfold is_legal
  infer_instance

/-- The Pour of spec §3, stated from the spec's words: "repeatedly
relocate the top token of source to destination while source remains
non-empty, `top(source) == top(destination)` (or destination just became
non-empty), and destination is not full."  This is the refinement
comparison point for `pour_run`. -/
def spec_pour : List ℕ → List ℕ → List ℕ × List ℕ
  | [], dst => ([], dst)
  | a :: rest, dst =>
    if (dst = [] ∨ dst.head? = some a) ∧ dst.length < MAX_STACK_SIZE then
      spec_pour rest (a :: dst)
    else (a :: rest, dst)

/-- The multiset of all tokens on the board, for the conservation
invariant of spec §3. -/
def tokens (stks : Board) : Multiset ℕ :=
  (stks.map fun t => (t : Multiset ℕ)).sum

/-- Applying a sequence of (in-range) moves through the move engine,
used to state "a won board is reachable by legal moves". -/
def replay (stks : Board) : List Move → Board
  | [] => stks
  | m :: ms => replay (process_move_core stks m.1 m.2 []).2.1 ms

/-! ### Helper lemmas about indexing -/

theorem pyIndex_natCast {n s : ℕ} (h : s < n) : pyIndex n (s : Int) = some s := by
  unfold pyIndex
  rw [if_pos ⟨Int.natCast_nonneg s, by exact_mod_cast h⟩]
  simp

theorem pyIndex_none_of_le {n : ℕ} {i : Int} (h : (n : Int) ≤ i) : pyIndex n i = none := by
  unfold pyIndex
  rw [if_neg (by omega), if_neg (by omega)]

theorem pyIndex_isSome_of_inrange {n : ℕ} {i : Int} (h1 : -(n : Int) ≤ i)
    (h2 : i < (n : Int)) : ∃ s, pyIndex n i = some s := by
  unfold pyIndex
  by_cases h : 0 ≤ i ∧ i < (n : Int)
  · exact ⟨i.toNat, by rw [if_pos h]⟩
  · exact ⟨(i + n).toNat, by rw [if_neg h, if_pos ⟨h1, by omega⟩]⟩

theorem process_move_natCast (stks prev : Board) {s d : ℕ}
    (hs : s < stks.length) (hd : d < stks.length) :
    process_move stks (s : Int) (d : Int) prev =
      .ok (process_move_core stks s d prev) := by
  have hne : ¬(s = d ∧ (s : Int) ≠ (d : Int)) := by
    rintro ⟨rfl, hne⟩
    exact hne rfl
  simp [process_move, pyIndex_natCast hs, pyIndex_natCast hd, hne]

/-! ### Helper lemmas about the pour loop -/

theorem pour_guard_iff (dst : List ℕ) (a : ℕ) (h : dst.length ≤ MAX_STACK_SIZE) :
    ((dst.isEmpty || dst.head? == some a) && dst.length != MAX_STACK_SIZE) = true ↔
      ((dst = [] ∨ dst.head? = some a) ∧ dst.length < MAX_STACK_SIZE) := by
  simp only [Bool.and_eq_true, Bool.or_eq_true, List.isEmpty_iff, beq_iff_eq,
    bne_iff_ne, ne_eq]
  constructor
  · rintro ⟨h1, h2⟩
    exact ⟨h1, by omega⟩
  · rintro ⟨h1, h2⟩
    exact ⟨h1, by omega⟩

theorem pour_run_eq_spec_pour : ∀ (src dst : List ℕ),
    dst.length ≤ MAX_STACK_SIZE →
    pour_run src dst true = ((spec_pour src dst).1, (spec_pour src dst).2, true)
  | [], dst, _ => by simp [pour_run, spec_pour]
  | a :: rest, dst, h => by
    by_cases hg : (dst = [] ∨ dst.head? = some a) ∧ dst.length < MAX_STACK_SIZE
    · simp only [pour_run, spec_pour, if_pos ((pour_guard_iff dst a h).mpr hg),
        if_pos hg]
      exact pour_run_eq_spec_pour rest (a :: dst)
        (by simp only [List.length_cons]; omega)
    · simp only [pour_run, spec_pour,
        if_neg (fun hb => hg ((pour_guard_iff dst a h).mp hb)), if_neg hg]

theorem pour_run_perm : ∀ (src dst : List ℕ) (b : Bool),
    ((pour_run src dst b).1 ++ (pour_run src dst b).2.1).Perm (src ++ dst)
  | [], dst, b => by simp [pour_run]
  | a :: rest, dst, b => by
    simp only [pour_run]
    split
    · exact (pour_run_perm rest (a :: dst) true).trans List.perm_middle
    · exact List.Perm.refl _

theorem pour_run_dst_length : ∀ (src dst : List ℕ) (b : Bool),
    dst.length ≤ MAX_STACK_SIZE →
    (pour_run src dst b).2.1.length ≤ MAX_STACK_SIZE
  | [], _, _, h => h
  | a :: rest, dst, b, h => by
    by_cases hg : (dst = [] ∨ dst.head? = some a) ∧ dst.length < MAX_STACK_SIZE
    · simp only [pour_run, if_pos ((pour_guard_iff dst a h).mpr hg)]
      exact pour_run_dst_length rest (a :: dst) true
        (by simp only [List.length_cons]; omega)
    · simp only [pour_run, if_neg (fun hb => hg ((pour_guard_iff dst a h).mp hb))]
      exact h

theorem pour_run_src_length : ∀ (src dst : List ℕ) (b : Bool),
    (pour_run src dst b).1.length ≤ src.length
  | [], _, _ => le_refl _
  | a :: rest, dst, b => by
    simp only [pour_run]
    split
    · exact (pour_run_src_length rest (a :: dst) true).trans (by simp)
    · exact le_refl _

theorem spec_pour_shape (src : List ℕ) : ∀ (dst : List ℕ) (a : ℕ),
    src.head? = some a → (dst = [] ∨ dst.head? = some a) →
    dst.length < MAX_STACK_SIZE →
    ∃ k, 1 ≤ k ∧ spec_pour src dst = (src.drop k, List.replicate k a ++ dst) := by
  induction src with
  | nil => intro dst a h hd hlen; simp at h
  | cons a' rest ih =>
    intro dst a h hd hlen
    obtain rfl : a' = a := by simpa using h
    simp only [spec_pour, if_pos (And.intro hd hlen)]
    rcases hrest : rest with _ | ⟨b, rest'⟩
    · refine ⟨1, le_refl 1, ?_⟩
      simp [spec_pour]
    · by_cases hb : b = a' ∧ (a' :: dst).length < MAX_STACK_SIZE
      · obtain ⟨k, hk, heq⟩ := ih (a' :: dst) a' (by simp [hrest, hb.1])
          (Or.inr (by simp)) hb.2
        rw [hrest] at heq
        refine ⟨k + 1, by omega, ?_⟩
        rw [heq]
        refine Prod.ext ?_ ?_
        · simp [List.drop_succ_cons]
        · simp [List.replicate_succ', List.append_assoc]
      · have hng : ¬(((a' :: dst) = [] ∨ (a' :: dst).head? = some b) ∧
            (a' :: dst).length < MAX_STACK_SIZE) := by
          rintro ⟨h1 | h2, h3⟩
          · exact absurd h1 (List.cons_ne_nil a' dst)
          · exact hb ⟨(show a' = b by simpa using h2).symm, h3⟩
        refine ⟨1, le_refl 1, ?_⟩
        simp only [spec_pour, if_neg hng]
        simp

/-! ### Helper lemmas about token multisets and list updates -/

theorem tokens_cons (t : List ℕ) (L : Board) :
    tokens (t :: L) = (t : Multiset ℕ) + tokens L := by
  simp [tokens]

theorem tokens_set : ∀ (L : Board) (i : ℕ) (x : List ℕ), i < L.length →
    tokens (L.set i x) + (L.getD i [] : Multiset ℕ) =
      tokens L + (x : Multiset ℕ)
  | [], i, x, h => by simp at h
  | t :: ts, 0, x, _ => by
    simp only [List.set_cons_zero, tokens_cons, List.getD_cons_zero]
    abel
  | t :: ts, i + 1, x, h => by
    simp only [List.set_cons_succ, tokens_cons, List.getD_cons_succ]
    have ih := tokens_set ts i x (by simp only [List.length_cons] at h; omega)
    rw [add_assoc, ih, ← add_assoc]

theorem set_getD_self : ∀ (L : Board) (i : ℕ), i < L.length →
    L.set i (L.getD i []) = L
  | [], i, h => by simp at h
  | t :: ts, 0, _ => rfl
  | t :: ts, i + 1, h => by
    show t :: ts.set i (ts.getD i []) = t :: ts
    rw [set_getD_self ts i (by simp only [List.length_cons] at h; omega)]

theorem getD_set_ne (L : Board) {i j : ℕ} (x : List ℕ) (h : i ≠ j) :
    (L.set i x).getD j [] = L.getD j [] := by
  rw [List.getD_eq_getElem?_getD, List.getD_eq_getElem?_getD,
    List.getElem?_set_ne h]

theorem getD_mem (L : Board) {i : ℕ} (h : i < L.length) : L.getD i [] ∈ L := by
  rw [List.getD_eq_getElem?_getD, List.getElem?_eq_getElem h]
  exact List.getElem_mem h

theorem precheck_neg (stks : Board) (s d : ℕ) (hsd : s ≠ d)
    (hsrc : stks.getD s [] ≠ [])
    (hlen : (stks.getD d []).length < MAX_STACK_SIZE) :
    ¬(((stks.getD s []).isEmpty
        || (stks.getD d []).length == MAX_STACK_SIZE || s == d) = true) := by
  intro hcond
  simp only [Bool.or_eq_true, List.isEmpty_iff, beq_iff_eq] at hcond
  rcases hcond with (h1 | h2) | h3
  · exact hsrc h1
  · omega
  · exact hsd h3

theorem legal_top_match {stks : Board} {s d : ℕ} {a : ℕ}
    (htop : stks.getD d [] = [] ∨
      (stks.getD s []).head? = (stks.getD d []).head?)
    (hhead : (stks.getD s []).head? = some a) :
    stks.getD d [] = [] ∨ (stks.getD d []).head? = some a := by
  rcases htop with h1 | h2
  · exact Or.inl h1
  · exact Or.inr (h2.symm.trans hhead)

theorem process_move_core_legal (stks prev : Board) {s d : ℕ}
    (_hs : s < stks.length) (_hd : d < stks.length)
    (hleg : is_legal stks s d) :
    process_move_core stks s d prev =
      (true,
        (stks.set s (spec_pour (stks.getD s []) (stks.getD d [])).1).set d
          (spec_pour (stks.getD s []) (stks.getD d [])).2,
        stks) := by
  obtain ⟨hsd, hsrc, hlen, htop⟩ := hleg
  obtain ⟨a, rest, hsrc_eq⟩ := List.exists_cons_of_ne_nil hsrc
  have hhead : (stks.getD s []).head? = some a := by rw [hsrc_eq]; rfl
  have hdisj : stks.getD d [] = [] ∨ (stks.getD d []).head? = some a :=
    legal_top_match htop hhead
  have hpour : pour_run (stks.getD s []) (stks.getD d []) false =
      ((spec_pour (stks.getD s []) (stks.getD d [])).1,
        (spec_pour (stks.getD s []) (stks.getD d [])).2, true) := by
    rw [hsrc_eq]
    have hguard := (pour_guard_iff (stks.getD d []) a (le_of_lt hlen)).mpr
      ⟨hdisj, hlen⟩
    simp only [pour_run, spec_pour, if_pos hguard, if_pos (And.intro hdisj hlen)]
    exact pour_run_eq_spec_pour rest (a :: stks.getD d [])
      (by simp only [List.length_cons]; omega)
  simp only [process_move_core, if_neg (precheck_neg stks s d hsd hsrc hlen),
    hpour]
  simp

theorem process_move_core_illegal (stks prev : Board) {s d : ℕ}
    (hs : s < stks.length) (hd : d < stks.length)
    (hcap : ∀ t ∈ stks, t.length ≤ MAX_STACK_SIZE)
    (hil : ¬ is_legal stks s d) :
    process_move_core stks s d prev = (false, stks, prev) := by
  by_cases hsd : s = d
  · simp only [process_move_core]
    rw [if_pos (show _ = true by
      simp only [Bool.or_eq_true, List.isEmpty_iff, beq_iff_eq]
      exact Or.inr hsd)]
  by_cases hsrc : stks.getD s [] = []
  · simp only [process_move_core]
    rw [if_pos (show _ = true by
      simp only [Bool.or_eq_true, List.isEmpty_iff, beq_iff_eq]
      exact Or.inl (Or.inl hsrc))]
  by_cases hfull : (stks.getD d []).length < MAX_STACK_SIZE
  · have hD : ¬(stks.getD d [] = [] ∨
        (stks.getD s []).head? = (stks.getD d []).head?) := fun hDD =>
      hil ⟨hsd, hsrc, hfull, hDD⟩
    push_neg at hD
    obtain ⟨a, rest, hsrc_eq⟩ := List.exists_cons_of_ne_nil hsrc
    have hD2 : (a :: rest).head? ≠ (stks.getD d []).head? := hsrc_eq ▸ hD.2
    have hpour : pour_run (stks.getD s []) (stks.getD d []) false =
        (stks.getD s [], stks.getD d [], false) := by
      rw [hsrc_eq]
      simp only [pour_run]
      rw [if_neg]
      intro hg
      simp only [Bool.and_eq_true, Bool.or_eq_true, List.isEmpty_iff,
        beq_iff_eq] at hg
      rcases hg.1 with h1 | h2
      · exact hD.1 h1
      · exact hD2 h2.symm
    simp only [process_move_core,
      if_neg (precheck_neg stks s d hsd hsrc hfull), hpour]
    rw [set_getD_self stks s hs, set_getD_self stks d hd]
    simp
  · have h4 : (stks.getD d []).length = MAX_STACK_SIZE := by
      have := hcap _ (getD_mem stks hd)
      omega
    simp only [process_move_core]
    rw [if_pos (show _ = true by
      simp only [Bool.or_eq_true, List.isEmpty_iff, beq_iff_eq]
      exact Or.inl (Or.inr h4))]

/-- C2: for every board and every legal move (source ≠ destination,
source non-empty, destination not full, and destination empty or its top
equal to the source top), `apply` (`process_move`) returns success=true,
its effect on the two tubes is exactly the spec's Pour — repeatedly
relocating the top token of source to destination while source remains
non-empty, the tops match (or destination just became non-empty), and
destination is not full — and the pour moves a run of `k ≥ 1` tokens all
equal to the source top in the single action.  The returned
`previous_state` is the pre-move board snapshot. -/
theorem c2_apply_performs_pour (stks prev : Board) (s d : ℕ)
    (hs : s < stks.length) (hd : d < stks.length) (hleg : is_legal stks s d) :
    process_move stks (s : Int) (d : Int) prev =
      .ok (true,
        (stks.set s (spec_pour (stks.getD s []) (stks.getD d [])).1).set d
          (spec_pour (stks.getD s []) (stks.getD d [])).2,
        stks) ∧
    ∃ k, 1 ≤ k ∧
      spec_pour (stks.getD s []) (stks.getD d []) =
        ((stks.getD s []).drop k,
          List.replicate k (stks.getD s []).headI ++ stks.getD d []) := by
  refine ⟨?_, ?_⟩
  · rw [process_move_natCast stks prev hs hd,
      process_move_core_legal stks prev hs hd hleg]
  · obtain ⟨hsd, hsrc, hlen, htop⟩ := hleg
    obtain ⟨a, rest, hsrc_eq⟩ := List.exists_cons_of_ne_nil hsrc
    have hhead : (stks.getD s []).head? = some a := by rw [hsrc_eq]; rfl
    have hheadI : (stks.getD s []).headI = a := by rw [hsrc_eq]; rfl
    rw [hheadI]
    exact spec_pour_shape (stks.getD s []) (stks.getD d []) a hhead
      (legal_top_match htop hhead) hlen

theorem c2_apply_performs_pour_witness :
    ((0 : ℕ) < ([[0, 0, 1], [0], []] : Board).length ∧
      (1 : ℕ) < ([[0, 0, 1], [0], []] : Board).length ∧
      is_legal [[0, 0, 1], [0], []] 0 1) ∧
    (process_move [[0, 0, 1], [0], []] ((0 : ℕ) : Int) ((1 : ℕ) : Int) [] =
      .ok (true,
        (([[0, 0, 1], [0], []] : Board).set 0
            (spec_pour (([[0, 0, 1], [0], []] : Board).getD 0 [])
              (([[0, 0, 1], [0], []] : Board).getD 1 [])).1).set 1
          (spec_pour (([[0, 0, 1], [0], []] : Board).getD 0 [])
            (([[0, 0, 1], [0], []] : Board).getD 1 [])).2,
        [[0, 0, 1], [0], []]) ∧
    ∃ k, 1 ≤ k ∧
      spec_pour (([[0, 0, 1], [0], []] : Board).getD 0 [])
          (([[0, 0, 1], [0], []] : Board).getD 1 []) =
        ((([[0, 0, 1], [0], []] : Board).getD 0 []).drop k,
          List.replicate k ((([[0, 0, 1], [0], []] : Board).getD 0 []).headI) ++
            ([[0, 0, 1], [0], []] : Board).getD 1 [])) :=
  ⟨⟨by decide, by decide, by decide⟩,
    c2_apply_performs_pour [[0, 0, 1], [0], []] [] 0 1 (by decide) (by decide)
      (by decide)⟩

/-- C3: for every board satisfying the capacity invariant and every
in-range move pair that is illegal, `apply` (`process_move`) reports the
failure as the boolean `false` — no exception — and returns the board
and the `previous_state` value-for-value unchanged.  (Out-of-range
indices are not Moves in the spec's sense — a Move is a pair of tube
indices — and are treated separately with C10.) -/
theorem c3_illegal_boolean_noop (stks prev : Board) (s d : ℕ)
    (hs : s < stks.length) (hd : d < stks.length)
    (hcap : ∀ t ∈ stks, t.length ≤ MAX_STACK_SIZE)
    (hil : ¬ is_legal stks s d) :
    process_move stks (s : Int) (d : Int) prev = .ok (false, stks, prev) := by
  rw [process_move_natCast stks prev hs hd,
    process_move_core_illegal stks prev hs hd hcap hil]

theorem c3_illegal_boolean_noop_witness :
    ((0 : ℕ) < ([[0, 1], [2]] : Board).length ∧
      (1 : ℕ) < ([[0, 1], [2]] : Board).length ∧
      (∀ t ∈ ([[0, 1], [2]] : Board), t.length ≤ MAX_STACK_SIZE) ∧
      ¬ is_legal [[0, 1], [2]] 0 1) ∧
    process_move [[0, 1], [2]] ((0 : ℕ) : Int) ((1 : ℕ) : Int) [[9]] =
      .ok (false, [[0, 1], [2]], [[9]]) :=
  ⟨⟨by decide, by decide, by decide, by decide⟩,
    c3_illegal_boolean_noop [[0, 1], [2]] [[9]] 0 1 (by decide) (by decide)
      (by decide) (by decide)⟩

/-- C4: for every board satisfying the capacity invariant and every
legal move, `apply` (`process_move`) conserves the multiset of tokens
across all tubes and keeps every tube's length at most the capacity 4. -/
theorem c4_tokens_conserved (stks prev : Board) (s d : ℕ)
    (hs : s < stks.length) (hd : d < stks.length)
    (hcap : ∀ t ∈ stks, t.length ≤ MAX_STACK_SIZE)
    (hleg : is_legal stks s d) :
    ∃ flag stks' prev',
      process_move stks (s : Int) (d : Int) prev = .ok (flag, stks', prev') ∧
      tokens stks' = tokens stks ∧
      ∀ t ∈ stks', t.length ≤ MAX_STACK_SIZE := by
  obtain ⟨hsd, hsrc, hlen, htop⟩ := hleg
  rw [process_move_natCast stks prev hs hd]
  simp only [process_move_core, if_neg (precheck_neg stks s d hsd hsrc hlen)]
  refine ⟨_, _, _, rfl, ?_, ?_⟩
  · have h1 := tokens_set stks s
      (pour_run (stks.getD s []) (stks.getD d []) false).1 hs
    have h2 := tokens_set
      (stks.set s (pour_run (stks.getD s []) (stks.getD d []) false).1) d
      (pour_run (stks.getD s []) (stks.getD d []) false).2.1
      (by rw [List.length_set]; exact hd)
    rw [getD_set_ne stks
      (pour_run (stks.getD s []) (stks.getD d []) false).1 hsd] at h2
    have hperm :
        (((pour_run (stks.getD s []) (stks.getD d []) false).1 ++
          (pour_run (stks.getD s []) (stks.getD d []) false).2.1 :
            List ℕ) : Multiset ℕ) =
        ((stks.getD s [] ++ stks.getD d [] : List ℕ) : Multiset ℕ) :=
      Multiset.coe_eq_coe.mpr (pour_run_perm _ _ _)
    have key :
        tokens ((stks.set s
            (pour_run (stks.getD s []) (stks.getD d []) false).1).set d
          (pour_run (stks.getD s []) (stks.getD d []) false).2.1) +
          ((stks.getD d [] : Multiset ℕ) + (stks.getD s [] : Multiset ℕ)) =
        tokens stks +
          ((stks.getD d [] : Multiset ℕ) + (stks.getD s [] : Multiset ℕ)) := by
      rw [← add_assoc, h2, add_right_comm, h1, add_assoc, Multiset.coe_add,
        hperm, ← Multiset.coe_add, add_comm ((stks.getD s [] : Multiset ℕ))]
    exact add_right_cancel key
  · intro t ht
    rcases List.mem_or_eq_of_mem_set ht with ht1 | rfl
    · rcases List.mem_or_eq_of_mem_set ht1 with ht2 | rfl
      · exact hcap t ht2
      · exact (pour_run_src_length _ _ _).trans (hcap _ (getD_mem stks hs))
    · exact pour_run_dst_length _ _ _ (le_of_lt hlen)

theorem c4_tokens_conserved_witness :
    ((0 : ℕ) < ([[0, 0, 1], [0], []] : Board).length ∧
      (1 : ℕ) < ([[0, 0, 1], [0], []] : Board).length ∧
      (∀ t ∈ ([[0, 0, 1], [0], []] : Board), t.length ≤ MAX_STACK_SIZE) ∧
      is_legal [[0, 0, 1], [0], []] 0 1) ∧
    (∃ flag stks' prev',
      process_move [[0, 0, 1], [0], []] ((0 : ℕ) : Int) ((1 : ℕ) : Int) [] =
        .ok (flag, stks', prev') ∧
      tokens stks' = tokens [[0, 0, 1], [0], []] ∧
      ∀ t ∈ stks', t.length ≤ MAX_STACK_SIZE) :=
  ⟨⟨by decide, by decide, by decide, by decide⟩,
    c4_tokens_conserved [[0, 0, 1], [0], []] [] 0 1 (by decide) (by decide)
      (by decide) (by decide)⟩

/-- C5 counterexample: the claim predicts `rate_solution 10 5 =
round(5 * 5 / 10) = round(2.5) = 3`, but the code computes
`int(max(1.0, round(2.5, 1))) = int(2.5) = 2`: the one-decimal rounding
is truncated toward zero, not rounded, when converted to an integer. -/
theorem c5_counterexample :
    rate_solution 10 5 = 2 ∧ ((rate_solution 10 5 == 3) = false) := by
  decide

/-- C5 amended: for positive user and optimal move counts,
`rate_solution` returns 5 when user ≤ optimal, and otherwise
`int(max(1.0, round(5 * optimal / user, 1)))` — the one-decimal rounding
truncated toward zero, clamped below at 1 — which always lies in
`[1, 5]`; in particular `rate_solution 5 5 = 5`,
`rate_solution 10 5 = 2` (not 3), and `rate_solution 1 5 = 5`. -/
theorem c5_rating_amended :
    (∀ user_moves optimal_moves : ℕ, 0 < user_moves → 0 < optimal_moves →
      (user_moves ≤ optimal_moves → rate_solution user_moves optimal_moves = 5) ∧
      1 ≤ rate_solution user_moves optimal_moves ∧
      rate_solution user_moves optimal_moves ≤ 5) ∧
    rate_solution 5 5 = 5 ∧ rate_solution 10 5 = 2 ∧ rate_solution 1 5 = 5 := by
  refine ⟨?_, by decide, by decide, by decide⟩
  intro u o hu ho
  refine ⟨fun hle => by simp [rate_solution, hle], ?_, ?_⟩
  · simp only [rate_solution]
    split
    · omega
    · exact le_max_left 1 _
  · simp only [rate_solution]
    split
    · omega
    · rename_i hgt
      have hq : 10 * (5 * o) / u < 50 :=
        (Nat.div_lt_iff_lt_mul hu).mpr (by omega)
      have hb : round1_times10 (5 * o) u ≤ 50 := by
        simp only [round1_times10]
        split
        · omega
        · split
          · omega
          · split <;> omega
      have hdiv : round1_times10 (5 * o) u / 10 ≤ 5 := by
        calc round1_times10 (5 * o) u / 10 ≤ 50 / 10 :=
              Nat.div_le_div_right hb
          _ = 5 := rfl
      exact max_le (by omega) hdiv

theorem c5_rating_amended_witness :
    ((0 : ℕ) < 10 ∧ (0 : ℕ) < 5) ∧
    ((10 ≤ 5 → rate_solution 10 5 = 5) ∧ 1 ≤ rate_solution 10 5 ∧
      rate_solution 10 5 ≤ 5) :=
  ⟨⟨by decide, by decide⟩, c5_rating_amended.1 10 5 (by decide) (by decide)⟩

/-- C1 counterexample: the board `[[c,c,c],[c,c,c],[c,c]]` (top-first,
color `c = 1`) can reach a won board in two legal moves — pour tube 0
onto tube 2, then tube 0 onto tube 1 — yet `best_solve` returns Python
`None` (`some none`): the solver's clean-stack pruning rejects every
candidate move at the root, so it returns no solving sequence at all,
refuting both the general minimality claim and the particular
"2-move board gives a path of length exactly 2" instance. -/
theorem c1_counterexample :
    best_solve [[1, 1, 1], [1, 1, 1], [1, 1]] = some none ∧
    is_legal [[1, 1, 1], [1, 1, 1], [1, 1]] 0 2 ∧
    is_legal (replay [[1, 1, 1], [1, 1, 1], [1, 1]] [(0, 2)]) 0 1 ∧
    check_win_condition
      (replay [[1, 1, 1], [1, 1, 1], [1, 1]] [(0, 2), (0, 1)]) = true := by
  decide

theorem replay_append : ∀ (xs ys : List Move) (b : Board),
    replay b (xs ++ ys) = replay (replay b xs) ys
  | [], _, _ => rfl
  | m :: xs, ys, b => by
    simp only [List.cons_append, replay]
    exact replay_append xs ys _

theorem gvm_none_mem_bounds {stks : Board} {m : Move}
    (hmem : m ∈ get_valid_moves stks none) :
    m.1 < stks.length ∧ m.2 < stks.length ∧ m.1 ≠ m.2 := by
  simp only [get_valid_moves, List.mem_flatMap] at hmem
  obtain ⟨p, hp, hmem2⟩ := hmem
  have hpl : p.1 < stks.length := List.fst_lt_of_mem_enum hp
  by_cases hemp : p.2.isEmpty = true
  · rw [if_pos hemp] at hmem2
    simp at hmem2
  · rw [if_neg hemp] at hmem2
    simp only [List.mem_filterMap] at hmem2
    obtain ⟨q, hq, hf⟩ := hmem2
    have hql : q.1 < stks.length := List.fst_lt_of_mem_enum hq
    split at hf
    · exact absurd hf (by simp)
    · rename_i h1
      split at hf
      · exact absurd hf (by simp)
      · split at hf
        · exact absurd hf (by simp)
        · split at hf
          · have hm : (p.1, q.1) = m := Option.some.inj hf
            refine ⟨?_, ?_, ?_⟩
            · rw [← hm]
              exact hpl
            · rw [← hm]
              exact hql
            · rw [← hm]
              intro hEq
              exact h1 (by simpa using hEq)
          · exact absurd hf (by simp)

theorem bfs_successors_sound {b0 b : Board} {path : List Move}
    (hb : replay b0 path = b) :
    ∀ x ∈ bfs_successors b path, replay b0 x.2 = x.1 := by
  intro x hx
  simp only [bfs_successors, List.mem_filterMap] at hx
  obtain ⟨m, hm, hfm⟩ := hx
  obtain ⟨hm1, hm2, _⟩ := gvm_none_mem_bounds hm
  simp only [process_move_natCast b [] hm1 hm2] at hfm
  split at hfm
  · have hx2 : ((process_move_core b m.1 m.2 []).2.1, path ++ [m]) = x :=
      Option.some.inj hfm
    rw [← hx2]
    rw [replay_append path [m] b0, hb]
    rfl
  · exact absurd hfm (by simp)

theorem bfs_run_sound (b0 : Board) : ∀ (fuel : ℕ)
    (visited : List Board) (queue : List (Board × List Move))
    (p : List Move),
    (∀ x ∈ queue, replay b0 x.2 = x.1) →
    bfs_run fuel (visited, queue) = some (some p) →
    check_win_condition (replay b0 p) = true := by
  intro fuel
  induction fuel with
  | zero =>
    intro visited queue p hinv h
    exact Option.noConfusion h
  | succ fuel ih =>
    intro visited queue p hinv h
    rcases queue with _ | ⟨⟨b, path⟩, rest⟩
    · have hnil : bfs_run (fuel + 1)
          (visited, ([] : List (Board × List Move))) = some none := rfl
      rw [hnil] at h
      simp at h
    · by_cases hv : b ∈ visited
      · have hstep : bfs_step (visited, (b, path) :: rest) =
            .inr (visited, rest) := by
          simp only [bfs_step, compress_state, if_pos hv]
        have hrun : bfs_run (fuel + 1) (visited, (b, path) :: rest) =
            bfs_run fuel (visited, rest) := by
          simp only [bfs_run, hstep]
        rw [hrun] at h
        exact ih visited rest p
          (fun x hx => hinv x (List.mem_cons_of_mem _ hx)) h
      · by_cases hw : check_win_condition b = true
        · have hstep : bfs_step (visited, (b, path) :: rest) =
              .inl (some path) := by
            simp only [bfs_step, compress_state, if_neg hv, if_pos hw]
          have hrun : bfs_run (fuel + 1) (visited, (b, path) :: rest) =
              some (some path) := by
            simp only [bfs_run, hstep]
          rw [hrun] at h
          obtain rfl : path = p := by simpa using h
          rw [hinv (b, path) (List.mem_cons_self _ _)]
          exact hw
        · have hstep : bfs_step (visited, (b, path) :: rest) =
              .inr (b :: visited, rest ++ bfs_successors b path) := by
            simp only [bfs_step, compress_state, if_neg hv, if_neg hw]
          have hrun : bfs_run (fuel + 1) (visited, (b, path) :: rest) =
              bfs_run fuel (b :: visited, rest ++ bfs_successors b path) := by
            simp only [bfs_run, hstep]
          rw [hrun] at h
          refine ih (b :: visited) (rest ++ bfs_successors b path) p ?_ h
          intro x hx
          rcases List.mem_append.mp hx with hx1 | hx2
          · exact hinv x (List.mem_cons_of_mem _ hx1)
          · exact bfs_successors_sound
              (hinv (b, path) (List.mem_cons_self _ _)) x hx2

theorem best_solve_sound (b : Board) (p : List Move)
    (h : best_solve b = some (some p)) :
    check_win_condition (replay b p) = true := by
  have h' : bfs_run SEARCH_FUEL ([], [(b, [])]) = some (some p) := h
  refine bfs_run_sound b SEARCH_FUEL [] [(b, [])] p ?_ h'
  intro x hx
  simp only [List.mem_singleton] at hx
  rw [hx]
  rfl

/-- C1 amended: `best_solve` is sound but not complete (and hence not
optimal) over all boards solvable by legal moves.  Soundness holds
universally: whenever `best_solve` returns a path, replaying that path
through the move engine from the starting board yields a won board.  On
the hand-built board `[[r,r,r],[g,g,g],[r,g],[]]` (top-first, `r = 0`,
`g = 1`), solvable in exactly 2 moves and untouched by the pruning, it
returns the path `[(2,0),(1,2)]` of length exactly 2, that path solves
the board, and no single move solves it.  But on
`[[c,c,c],[c,c,c],[c,c]]` it returns `None` although a won board is
reachable in two legal moves, because its clean-stack pruning
disconnects the search space. -/
theorem c1_solver_amended :
    (∀ (b : Board) (p : List Move), best_solve b = some (some p) →
      check_win_condition (replay b p) = true) ∧
    best_solve [[0, 0, 0], [1, 1, 1], [0, 1], []] =
      some (some [(2, 0), (1, 2)]) ∧
    List.length [(2, 0), (1, 2)] = 2 ∧
    check_win_condition
      (replay [[0, 0, 0], [1, 1, 1], [0, 1], []] [(2, 0), (1, 2)]) = true ∧
    ((List.range 4).all fun s => (List.range 4).all fun d =>
      !check_win_condition
        (process_move_core [[0, 0, 0], [1, 1, 1], [0, 1], []] s d []).2.1) =
      true ∧
    best_solve [[1, 1, 1], [1, 1, 1], [1, 1]] = some none ∧
    check_win_condition
      (replay [[1, 1, 1], [1, 1, 1], [1, 1]] [(0, 2), (0, 1)]) = true :=
  ⟨best_solve_sound, by decide, by decide, by decide, by decide, by decide,
    by decide⟩

theorem c1_solver_amended_witness :
    best_solve [[0, 0, 0], [1, 1, 1], [0, 1], []] =
      some (some [(2, 0), (1, 2)]) ∧
    check_win_condition
      (replay [[0, 0, 0], [1, 1, 1], [0, 1], []] [(2, 0), (1, 2)]) = true :=
  ⟨by decide, c1_solver_amended.1 [[0, 0, 0], [1, 1, 1], [0, 1], []]
    [(2, 0), (1, 2)] (by decide)⟩

/-- C6 counterexample: running `best_solve` on `[[1,2],[1,1]]`
(top-first): step 1 dequeues the root and enqueues both successors;
step 2 processes the `(0,1)` successor; step 3 therefore dequeues
`([[1,1,1,2],[]], [(1,0)])`, a node whose path ends in the move `(1,0)`
— and the reverse candidate `(0,1)` is NOT skipped: it appears in the
move list `get_valid_moves` returns for the node (`best_solve` passes no
previous move), and the reversed successor with path `[(1,0),(0,1)]` is
enqueued. -/
theorem c6_counterexample :
    bfs_step ([], [([[1, 2], [1, 1]], [])]) =
      .inr ([[[1, 2], [1, 1]]],
        [([[2], [1, 1, 1]], [(0, 1)]), ([[1, 1, 1, 2], []], [(1, 0)])]) ∧
    bfs_step ([[[1, 2], [1, 1]]],
        [([[2], [1, 1, 1]], [(0, 1)]), ([[1, 1, 1, 2], []], [(1, 0)])]) =
      .inr ([[[2], [1, 1, 1]], [[1, 2], [1, 1]]],
        [([[1, 1, 1, 2], []], [(1, 0)])]) ∧
    (([[[2], [1, 1, 1]], [[1, 2], [1, 1]]] : List Board).contains
      [[1, 1, 1, 2], []]) = false ∧
    (get_valid_moves [[1, 1, 1, 2], []] none).contains (0, 1) = true ∧
    bfs_step ([[[2], [1, 1, 1]], [[1, 2], [1, 1]]],
        [([[1, 1, 1, 2], []], [(1, 0)])]) =
      .inr ([[[1, 1, 1, 2], []], [[2], [1, 1, 1]], [[1, 2], [1, 1]]],
        [([[2], [1, 1, 1]], [(1, 0), (0, 1)])]) :=
  ⟨rfl, rfl, by decide, by decide, rfl⟩

/-- C6 amended: `get_valid_moves` implements the reverse-move skip, but
only when a previous move is supplied: for every board and previous move
`(d, s)` the candidate `(s, d)` never occurs in its output.
`best_solve`, however, calls `get_valid_moves(stacks)` without the
previous move, so during the solver's successor generation the reverse
of the move that produced the node IS offered (count 1 on the concrete
dequeued node of the counterexample) and such reversals are discarded
only later by the visited-set deduplication. -/
theorem c6_reverse_prune_amended :
    (∀ (stks : Board) (d s : ℕ),
      (get_valid_moves stks (some (d, s))).count (s, d) = 0) ∧
    (get_valid_moves [[1, 1, 1, 2], []] (some (1, 0))).count (0, 1) = 0 ∧
    (get_valid_moves [[1, 1, 1, 2], []] none).count (0, 1) = 1 := by
  refine ⟨?_, by decide, by decide⟩
  intro stks d s
  rw [List.count_eq_zero]
  intro hmem
  simp only [get_valid_moves, List.mem_flatMap] at hmem
  obtain ⟨p, hp, hmem2⟩ := hmem
  by_cases hemp : p.2.isEmpty = true
  · rw [if_pos hemp] at hmem2
    simp at hmem2
  · rw [if_neg hemp] at hmem2
    simp only [List.mem_filterMap] at hmem2
    obtain ⟨q, hq, hf⟩ := hmem2
    by_cases h1 : (p.1 == q.1) = true
    · rw [if_pos h1] at hf
      exact absurd hf (by simp)
    · rw [if_neg h1] at hf
      by_cases h2 : (d == q.1 && s == p.1) = true
      · rw [if_pos h2] at hf
        exact absurd hf (by simp)
      · rw [if_neg h2] at hf
        by_cases h3 : (all_equal p.2 &&
            (q.2.isEmpty ||
              decide ((MAX_STACK_SIZE : Int) - q.2.length <
                p.2.length))) = true
        · rw [if_pos h3] at hf
          exact absurd hf (by simp)
        · rw [if_neg h3] at hf
          by_cases h4 : ((q.2.isEmpty || q.2.head? == p.2.head?) &&
              decide (q.2.length < MAX_STACK_SIZE)) = true
          · rw [if_pos h4] at hf
            obtain ⟨hps, hqd⟩ : p.1 = s ∧ q.1 = d := by
              simpa [Prod.ext_iff] using hf
            apply h2
            simp [hps, hqd]
          · rw [if_neg h4] at hf
            exact absurd hf (by simp)

/-- C7 counterexample: after one successful move and a `reset`, the
current board equals the original board, but the recorded move list is
NOT empty: the reset branch of `main.py` only copies `original_stacks`
into `stacks` and never clears `moves`. -/
theorem c7_counterexample :
    session_run (init_session [[0, 0, 1], [0], []]) [.move 0 1, .reset] =
      some ⟨[[0, 0, 1], [0], []], [[0, 0, 1], [0], []], [[0, 0, 1], [0], []],
        [(0, 1)]⟩ ∧
    (([(0, 1)] : List (Int × Int)).isEmpty = false) := by
  decide

theorem session_step_original {st st1 : Session} {c : Cmd}
    (h : session_step st c = some st1) :
    st1.original_stacks = st.original_stacks := by
  cases c with
  | reset =>
    simp only [session_step, Option.some.injEq] at h
    rw [← h]
  | undo =>
    simp only [session_step] at h
    split at h <;> (simp only [Option.some.injEq] at h; rw [← h])
  | move source destination =>
    simp only [session_step] at h
    rcases hp : process_move st.stks source destination st.previous_state with
      e | r
    · simp only [hp] at h
      cases e with
      | indexError =>
        simp only [Option.some.injEq] at h
        rw [← h]
      | nonTermination => exact Option.noConfusion h
    · simp only [hp] at h
      split at h <;> (simp only [Option.some.injEq] at h; rw [← h])

/-- C7 amended: after any command sequence the session's
`original_stacks` is still the board fixed at session creation, and a
`reset` sets the current board to exactly that original board (not a
regenerated layout) while leaving every other field — in particular the
recorded move list — unchanged. -/
theorem c7_reset_amended (st st' : Session) (cmds : List Cmd)
    (h : session_run st cmds = some st') :
    st'.original_stacks = st.original_stacks ∧
    session_step st' .reset =
      some { st' with stks := st'.original_stacks } := by
  refine ⟨?_, rfl⟩
  induction cmds generalizing st with
  | nil =>
    simp only [session_run, Option.some.injEq] at h
    rw [← h]
  | cons c cs ih =>
    rcases hstep : session_step st c with _ | st1
    · simp only [session_run, hstep] at h
      exact Option.noConfusion h
    · simp only [session_run, hstep] at h
      exact (ih st1 h).trans (session_step_original hstep)

theorem c7_reset_amended_witness :
    (session_run (init_session [[0, 0, 1], [0], []]) [Cmd.move 0 1] =
      some ⟨[[1], [0, 0, 0], []], [[0, 0, 1], [0], []], [[0, 0, 1], [0], []],
        [(0, 1)]⟩) ∧
    ((⟨[[1], [0, 0, 0], []], [[0, 0, 1], [0], []], [[0, 0, 1], [0], []],
        [(0, 1)]⟩ : Session).original_stacks =
      (init_session [[0, 0, 1], [0], []]).original_stacks ∧
      session_step (⟨[[1], [0, 0, 0], []], [[0, 0, 1], [0], []],
          [[0, 0, 1], [0], []], [(0, 1)]⟩ : Session) .reset =
        some ⟨[[0, 0, 1], [0], []], [[0, 0, 1], [0], []],
          [[0, 0, 1], [0], []], [(0, 1)]⟩) :=
  ⟨by decide,
    c7_reset_amended (init_session [[0, 0, 1], [0], []])
      ⟨[[1], [0, 0, 0], []], [[0, 0, 1], [0], []], [[0, 0, 1], [0], []],
        [(0, 1)]⟩ [Cmd.move 0 1] (by decide)⟩

/-- C8 counterexample: after two successful moves M1 = (0,1) and
M2 = (0,2), one undo leaves the move list `[(0,1)]`; a second
consecutive undo leaves the board unchanged but pops the move list to
`[]` — it is not a no-op on the session state as the claim requires. -/
theorem c8_counterexample :
    (session_run (init_session [[0, 0, 1], [0], []])
        [.move 0 1, .move 0 2, .undo]).map Session.moves = some [(0, 1)] ∧
    (session_run (init_session [[0, 0, 1], [0], []])
        [.move 0 1, .move 0 2, .undo, .undo]).map Session.moves = some [] ∧
    ((([] : List (Int × Int)) == [(0, 1)]) = false) ∧
    (session_run (init_session [[0, 0, 1], [0], []])
        [.move 0 1, .move 0 2, .undo, .undo]).map Session.stks =
      (session_run (init_session [[0, 0, 1], [0], []])
        [.move 0 1, .move 0 2, .undo]).map Session.stks := by
  decide

/-- C8 amended: `undo` restores the single retained snapshot and pops
the move list whenever the move list is non-empty (and is a no-op on an
empty move list).  Concretely, after two successful moves one undo
restores the board to just before the second move and drops it from the
move list; a second consecutive undo leaves the BOARD at that same state
(only one level of board rollback is retained) but additionally drops
the first move from the move list. -/
theorem c8_undo_amended :
    (∀ st : Session, session_step st .undo =
      some (if st.moves.isEmpty then st
        else { st with
          moves := st.moves.dropLast
          stks := st.previous_state })) ∧
    session_run (init_session [[0, 0, 1], [0], []])
        [.move 0 1, .move 0 2, .undo] =
      some ⟨[[1], [0, 0, 0], []], [[0, 0, 1], [0], []], [[1], [0, 0, 0], []],
        [(0, 1)]⟩ ∧
    session_run (init_session [[0, 0, 1], [0], []])
        [.move 0 1, .move 0 2, .undo, .undo] =
      some ⟨[[1], [0, 0, 0], []], [[0, 0, 1], [0], []], [[1], [0, 0, 0], []],
        []⟩ := by
  refine ⟨?_, by decide, by decide⟩
  intro st
  simp only [session_step]
  exact (apply_ite some _ _ _).symm

theorem c9_shuffles_perm (i : ℕ) (l : List ℕ) : (c9_shuffles i l).Perm l := by
  unfold c9_shuffles
  split
  · rename_i hcond
    simp only [Bool.and_eq_true, beq_iff_eq] at hcond
    rw [hcond.2]
    decide
  · exact List.Perm.refl l

theorem c9_shuffles_fixed (i : ℕ) :
    c9_shuffles i [0, 0, 0, 0] = [0, 0, 0, 0] := by
  unfold c9_shuffles
  rw [if_neg]
  intro hcond
  simp only [Bool.and_eq_true, beq_iff_eq] at hcond
  exact absurd hcond.2 (by decide)

theorem gen_loop_stuck (S : List (List ℕ)) : ∀ (f i : ℕ),
    gen_loop c9_shuffles f i [0, 0, 0, 0] S = none := by
  intro f
  induction f with
  | zero => intro i; rfl
  | succ f ih =>
    intro i
    have h1 : gen_loop c9_shuffles (f + 1) i [0, 0, 0, 0] S =
        gen_loop c9_shuffles f (i + 1) (c9_shuffles i [0, 0, 0, 0]) S := rfl
    rw [h1, c9_shuffles_fixed i]
    exact ih (i + 1)

theorem gen_loop_c9_start : ∀ f : ℕ,
    gen_loop c9_shuffles f 1 [0, 0, 0, 0, 1, 1, 2, 2, 1, 1, 2, 2] [] =
      none := by
  intro f
  match f with
  | 0 => rfl
  | 1 => rfl
  | f + 2 =>
    have h2 : gen_loop c9_shuffles (f + 2) 1
        [0, 0, 0, 0, 1, 1, 2, 2, 1, 1, 2, 2] [] =
        gen_loop c9_shuffles f 1 [0, 0, 0, 0] [[2, 2, 1, 1], [2, 2, 1, 1]] :=
      rfl
    rw [h2]
    exact gen_loop_stuck [[2, 2, 1, 1], [2, 2, 1, 1]] f 1

/-- C9: the claim (and spec §4.3) requires the rejection/reshuffle loop
of generation to be bounded, with retry exhaustion reported as an
internal fatal error.  The code has no retry bound: for `num_stacks = 5`
there is an admissible stream of shuffle outcomes (each a permutation of
its input, as `random.shuffle` produces) under which the pool is reduced
to four same-colored tokens, every redraw yields the same uniform stack,
and the loop never terminates — `initialize_game` returns no result for
ANY amount of fuel, and no error is ever surfaced. -/
theorem c9_generation_unbounded :
    (∀ (i : ℕ) (l : List ℕ), (c9_shuffles i l).Perm l) ∧
    (∀ fuel, initialize_game 5 c9_shuffles fuel = none) := by
  refine ⟨c9_shuffles_perm, ?_⟩
  intro fuel
  have h0 : initialize_game 5 c9_shuffles fuel =
      (gen_loop c9_shuffles fuel 1
        [0, 0, 0, 0, 1, 1, 2, 2, 1, 1, 2, 2] []).map
        (fun stks => stks ++ [[], []]) := rfl
  rw [h0, gen_loop_c9_start fuel]
  rfl

/-- C10: `process_move` performs no bounds validation on its indices: a
source subscript at or beyond the tube count raises `IndexError` (so
does an in-range source with an out-of-range destination) rather than
returning a boolean failure, while the index `-1` — which `parse_move`
produces from tube number `0` — resolves to the LAST tube, so the move
is applied there instead of being rejected, as the concrete run on
`[[2],[1],[1]]` shows: `process_move(stacks, -1, 1)` succeeds and pours
from the final tube. -/
theorem c10_no_bounds_validation :
    (∀ (stks prev : Board) (source destination : Int),
      (stks.length : Int) ≤ source →
      process_move stks source destination prev = .error .indexError) ∧
    (∀ (stks prev : Board) (source destination : Int),
      -(stks.length : Int) ≤ source → source < (stks.length : Int) →
      (stks.length : Int) ≤ destination →
      process_move stks source destination prev = .error .indexError) ∧
    (∀ n : ℕ, 1 ≤ n → pyIndex n (-1) = some (n - 1)) ∧
    parse_move_indices 0 2 = (-1, 1) ∧
    process_move [[2], [1], [1]] (-1) 1 [] =
      .ok (true, [[2], [1, 1], []], [[2], [1], [1]]) := by
  refine ⟨?_, ?_, ?_, by decide, rfl⟩
  · intro stks prev source destination h
    simp [process_move, pyIndex_none_of_le h]
  · intro stks prev source destination h1 h2 h3
    obtain ⟨s, hs⟩ := pyIndex_isSome_of_inrange h1 h2
    simp [process_move, hs, pyIndex_none_of_le h3]
  · intro n hn
    unfold pyIndex
    rw [if_neg (by omega), if_pos ⟨by omega, by omega⟩]
    congr 1
    omega

theorem c10_no_bounds_validation_witness :
    ((([[2], [1]] : Board).length : Int) ≤ 7 ∧
      process_move [[2], [1]] 7 0 [] = .error .indexError) ∧
    ((-(([[2], [1]] : Board).length : Int) ≤ 0 ∧
        (0 : Int) < (([[2], [1]] : Board).length : Int) ∧
        (([[2], [1]] : Board).length : Int) ≤ 9) ∧
      process_move [[2], [1]] 0 9 [] = .error .indexError) ∧
    ((1 : ℕ) ≤ 3 ∧ pyIndex 3 (-1) = some (3 - 1)) :=
  ⟨⟨by decide, c10_no_bounds_validation.1 [[2], [1]] [] 7 0 (by decide)⟩,
    ⟨⟨by decide, by decide, by decide⟩,
      c10_no_bounds_validation.2.1 [[2], [1]] [] 0 9 (by decide) (by decide)
        (by decide)⟩,
    ⟨by decide, c10_no_bounds_validation.2.2.1 3 (by decide)⟩⟩

end ColorSort
